import Mathlib

/-!
Verification of the AI correction generation pipeline of AITextCorrector
(backend/ai/ai_manager.py and backend/utils/correction_validation.py).

Python strings are modelled as lists of characters (`Str`); Python list and
string operations used by the pipeline (split, strip, lower, join,
dict.fromkeys de-duplication, zip, Counter.most_common) are embedded as
executable Lean functions with the same semantics.  Fallible code returns
`Except`.  Floating point arithmetic of the similarity validator is modelled
with exact rationals; for the values involved (quotients of edit distances by
paragraph lengths compared against one half) the two agree away from ties at
machine precision.
-/

set_option maxRecDepth 40000

/-- Python `str` modelled as a list of characters. -/
abbrev Str := List Char

/-- Characters of a Lean string literal, used to write concrete inputs. -/
def str (s : String) : Str := s.data

/-- Python whitespace test (`str.strip` with no arguments strips these). -/
def isPySpace (c : Char) : Bool := c.isWhitespace

/-- Python `s.strip()`: drop whitespace from both ends. -/
def pyStrip (s : Str) : Str :=
  ((s.dropWhile isPySpace).reverse.dropWhile isPySpace).reverse

/-- Python `s.lower()` (ASCII case folding suffices for the fixed phrase
lists used by the segmenter). -/
def pyLower (s : Str) : Str := s.map Char.toLower

/-- Worker for `pySplit`: split on the separator `d :: ds`, scanning left to
right and consuming non-overlapping occurrences, exactly like Python
`s.split(sep)`.  `fuel` bounds the recursion; it is called with the length of
the string, which always suffices. -/
def pySplitFuel (d : Char) (ds : Str) : Nat → Str → List Str
  | _, [] => [[]]
  | 0, s => [s]
  | fuel + 1, c :: rest =>
    if (d :: ds).isPrefixOf (c :: rest) then
      [] :: pySplitFuel d ds fuel (rest.drop ds.length)
    else
      match pySplitFuel d ds fuel rest with
      | [] => [[c]]
      | p :: ps => (c :: p) :: ps

/-- Python `s.split(sep)` for a non-empty separator. -/
def pySplit (sep s : Str) : List Str :=
  match sep with
  | [] => [s]
  | d :: ds => pySplitFuel d ds s.length s

/-- Python `sep.join(parts)`. -/
def pyJoin (sep : Str) : List Str → Str
  | [] => []
  | [x] => x
  | x :: y :: rest => x ++ sep ++ pyJoin sep (y :: rest)

/-- Worker for `pyDedup`, keeping the first occurrence of every element that
is not already in `seen`. -/
def pyDedupGo : List Str → List Str → List Str
  | [], _ => []
  | x :: xs, seen =>
    if x ∈ seen then pyDedupGo xs seen else x :: pyDedupGo xs (x :: seen)

/-- Python `list(dict.fromkeys(parts))`: de-duplicate, keeping the first
occurrence of each element and preserving order. -/
def pyDedup (l : List Str) : List Str := pyDedupGo l []

/-- `[part.strip() for part in parts]` followed by dropping empty entries,
the first normalisation step of the segmenter. -/
def nonempty_stripped (parts : List Str) : List Str :=
  (parts.map pyStrip).filter (fun p => !p.isEmpty)

/-- Correction workflow status of a paragraph.  The enumeration is declared in
backend/db/project.py alongside the `Paragraph` model; its six members are the
ones the pipeline code in backend/ai/ai_manager.py branches on. -/
inductive CorrectionStatus
  | notGenerated
  | generated
  | reviewed
  | accepted
  | rejected
  | notRequired
  deriving DecidableEq, Repr

/-- The `Paragraph` pydantic model of backend/db/project.py (the fields the
correction pipeline reads or writes). -/
structure Paragraph where
  partOfChapter : Nat
  index : Nat
  originalText : Str
  correctedText : Option Str
  manuallyCorrectedText : Option Str
  leadingSpace : Nat
  correctionStatus : CorrectionStatus
  deriving DecidableEq, Repr

instance : Inhabited Paragraph :=
  ⟨⟨0, 0, [], none, none, 0, CorrectionStatus.notGenerated⟩⟩

/-- A fresh paragraph as built during import: both correction fields unset and
status `notGenerated`. -/
def mkPara (i : Nat) (t : Str) : Paragraph :=
  ⟨0, i, t, none, none, 0, CorrectionStatus.notGenerated⟩

/-- `MAX_TECHNICAL_RETRIES` of ai_manager.py. -/
def MAX_TECHNICAL_RETRIES : Nat := 3

/-- `RE_RUN_MAX_RETRIES` of ai_manager.py. -/
def RE_RUN_MAX_RETRIES : Nat := 1

/-- `is_ai_preamble` of ai_manager.py: case-insensitive prefix match against
the fixed phrase list. -/
def is_ai_preamble (text : Str) : Bool :=
  let l := pyLower text
  (str "here are the corrected text").isPrefixOf l ||
  (str "here are the corrected paragraphs").isPrefixOf l ||
  (str "here are the corrected chapters").isPrefixOf l ||
  (str "here are the corrections").isPrefixOf l ||
  (str "here are your corrections").isPrefixOf l ||
  (str "here are the text paragraphs").isPrefixOf l ||
  (str "here is the corrected").isPrefixOf l ||
  (str "here\x27s the corrected").isPrefixOf l

/-- Python `needle in hay` substring test. -/
def strContains (needle : Str) : Str → Bool
  | [] => needle.isEmpty
  | c :: rest => needle.isPrefixOf (c :: rest) || strContains needle rest

/-- `is_ai_corrections_summary` of ai_manager.py. -/
def is_ai_corrections_summary (parts : List Str) : Bool :=
  if parts.length < 2 then false
  else
    let fl := pyLower (parts.headD [])
    (strContains (str "issues") fl && strContains (str "provided") fl &&
      strContains (str "corrections") fl) ||
    strContains (str "here is the corrected") fl

/-- Error raised by `extract_corrections` when no fallback stage produces the
expected number of segments.  The code prints and raises with the expected
paragraph count and the segment count of the first split. -/
structure ParseError where
  expected : Nat
  actual : Nat
  deriving DecidableEq, Repr

/-- Stage 1 of `extract_corrections`: split the response on `"---"`, strip
each part, drop empty parts. -/
def initial_parts (response : Str) : List Str :=
  nonempty_stripped (pySplit (str "---") response)

/-- `if len(parts) > 1 and is_ai_preamble(parts[0]): parts = parts[1:]`. -/
def drop_ai_preamble (parts : List Str) : List Str :=
  if parts.length > 1 ∧ is_ai_preamble (parts.headD []) = true then parts.tail
  else parts

/-- Stage 3 of `extract_corrections`: drop a leading preamble, then delete
exactly duplicated parts keeping first occurrences. -/
def deduped_parts (response : Str) : List Str :=
  pyDedup (drop_ai_preamble (initial_parts response))

/-- Stage 4 of `extract_corrections`: re-split every part on blank lines,
strip the sections (empty sections are kept), then drop a leading preamble. -/
def blank_line_parts (response : Str) : List Str :=
  drop_ai_preamble
    (((deduped_parts response).map
      (fun part => (pySplit (str "\n\n") part).map pyStrip)).flatten)

/-- Stage 5 of `extract_corrections`: split the stage-4 parts once more on
single newlines. -/
def single_line_parts (response : Str) : List Str :=
  ((blank_line_parts response).map
    (fun part => (pySplit (str "\n") part).map pyStrip)).flatten

/-- Stage 6 of `extract_corrections`: retry with the em-dash separator,
restoring non-preamble content of the first part when a preamble is cut. -/
def emdash_parts (response : Str) : List Str :=
  let ep := nonempty_stripped (pySplit (str "—") response)
  if ep.length > 1 ∧ is_ai_preamble (ep.headD []) = true then
    let first := ep.headD []
    let rest := ep.tail
    let sf0 := pySplit (str "\n\n") first
    let sf := if sf0.length < 2 then pySplit (str "\n") first else sf0
    if sf.length > 1 then sf.tail ++ rest else rest
  else ep

/-- `extract_corrections` of ai_manager.py: the ordered fallback chain that
turns one model response into exactly one candidate string per paragraph of
the bundle, or fails with a `ParseError`. -/
def extract_corrections (paragraph_bundle : List Paragraph) (response : Str) :
    Except ParseError (List Str) :=
  if (initial_parts response).length = paragraph_bundle.length then
    Except.ok (initial_parts response)
  else if (initial_parts response).length = paragraph_bundle.length + 1 ∧
      is_ai_preamble ((initial_parts response).headD []) = true then
    Except.ok (initial_parts response).tail
  else if (deduped_parts response).length = paragraph_bundle.length then
    Except.ok (deduped_parts response)
  else if (blank_line_parts response).length = paragraph_bundle.length then
    Except.ok (blank_line_parts response)
  else if (single_line_parts response).length = paragraph_bundle.length ∧
      is_ai_corrections_summary (single_line_parts response) = false then
    Except.ok (single_line_parts response)
  else if (emdash_parts response).length = paragraph_bundle.length then
    Except.ok (emdash_parts response)
  else Except.error ⟨paragraph_bundle.length, (initial_parts response).length⟩

/-- One cell of the Levenshtein dynamic program: minimum of deletion,
insertion and (mis)match. -/
def levCell (diag up left : Nat) (same : Bool) : Nat :=
  min (min (up + 1) (left + 1)) (diag + (if same then 0 else 1))

/-- Walk one row of the Levenshtein dynamic program.  `diag` is the entry of
the previous row one column to the left, `prev` the remaining entries of the
previous row, `left` the entry of the current row one column to the left. -/
def levRowGo (x : Char) : List Char → Nat → List Nat → Nat → List Nat
  | [], _, _, _ => []
  | _ :: _, _, [], _ => []
  | y :: ys, diag, up :: prev, left =>
    let cell := levCell diag up left (x == y)
    cell :: levRowGo x ys up prev cell

/-- Next row of the Levenshtein dynamic program. -/
def levRow (x : Char) (ys : List Char) (prevRow : List Nat) : List Nat :=
  match prevRow with
  | [] => []
  | d :: rest => (d + 1) :: levRowGo x ys d rest (d + 1)

/-- `Levenshtein.distance` from the python-Levenshtein library used by
backend/utils/correction_validation.py, as the standard dynamic program. -/
def levenshtein_distance (a b : Str) : Nat :=
  (a.foldl (fun row x => levRow x b row) (List.range (b.length + 1))).getLastD 0

/-- `DEFAULT_THRESHOLD` of correction_validation.py. -/
def DEFAULT_THRESHOLD : ℚ := 1 / 2

/-- Relative Levenshtein distance of a correction from its original, the
per-pair quantity of `validate_corrections` (exact rational in place of the
float quotient). -/
def relative_dist (o c : Str) : ℚ := (levenshtein_distance o c : ℚ) / (o.length : ℚ)

/-- The loop of `validate_corrections`: walk the zipped pairs, collecting
relative distances; `none` models the early `return False` taken on an empty
original or, in `all_must_pass` mode, on a pair over the threshold. -/
def relative_dists (threshold : ℚ) (all_must_pass : Bool) :
    List (Str × Str) → Option (List ℚ)
  | [] => some []
  | (o, c) :: rest =>
    if o.length = 0 then none
    else if all_must_pass = true ∧ relative_dist o c > threshold then none
    else
      match relative_dists threshold all_must_pass rest with
      | none => none
      | some l => some (relative_dist o c :: l)

/-- `validate_corrections` of backend/utils/correction_validation.py.
Raises (`Except.error`) on a length mismatch; otherwise `ok true` or
`ok false`. -/
def validate_corrections (original corrections : List Str) (threshold : ℚ)
    (all_must_pass : Bool) : Except Unit Bool :=
  if original.length ≠ corrections.length then Except.error ()
  else if original.length = 0 then Except.ok true
  else
    match relative_dists threshold all_must_pass (original.zip corrections) with
    | none => Except.ok false
    | some ds =>
      if ds.sum / (original.length : ℚ) > threshold then Except.ok false
      else Except.ok true

/-- Total original-text length of a chunk, the quantity `current_size`
tracks in `chunked_paragraphs`. -/
def chunkLen (chunk : List Paragraph) : Nat :=
  (chunk.map (fun p => p.originalText.length)).sum

/-- Index of the last paragraph of the current chunk
(`current_chunk[-1].index`; only consulted on non-empty chunks). -/
def lastIndexD : List Paragraph → Nat
  | [] => 0
  | [p] => p.index
  | _ :: q :: rest => lastIndexD (q :: rest)

/-- Loop of `chunked_paragraphs`: `cur` is `current_chunk` and `size` is
`current_size`. -/
def chunkGo (chunk_size : Nat) : List Paragraph → List Paragraph → Nat →
    List (List Paragraph)
  | [], cur, _ => if cur.isEmpty then [] else [cur]
  | p :: rest, cur, size =>
    if (size + p.originalText.length > chunk_size ∧ cur ≠ []) ∨
        (cur ≠ [] ∧ lastIndexD cur + 1 ≠ p.index) then
      cur :: chunkGo chunk_size rest [p] p.originalText.length
    else
      chunkGo chunk_size rest (cur ++ [p]) (size + p.originalText.length)

/-- `chunked_paragraphs` of ai_manager.py: group paragraphs into chunks of
bounded total character length without crossing index gaps. -/
def chunked_paragraphs (paragraphs : List Paragraph) (chunk_size : Nat) :
    List (List Paragraph) :=
  chunkGo chunk_size paragraphs [] 0

/-- Length of the shortest list, the number of tuples Python `zip(*lists)`
produces for a non-empty argument list. -/
def minLen (ls : List (List Str)) : Nat :=
  match ls with
  | [] => 0
  | x :: xs => xs.foldl (fun m e => min m e.length) x.length

/-- Python `zip(*ls)`: the list of slots, each slot collecting the entries of
every list at one position, truncated at the shortest list.  `zip()` with no
arguments is empty. -/
def zipStar (ls : List (List Str)) : List (List Str) :=
  match ls with
  | [] => []
  | x :: xs =>
    (List.range (minLen (x :: xs))).map
      (fun j => (x :: xs).map (fun e => e.getD j []))

/-- `Counter(slot_items).most_common(1)[0][0]`: the most frequent element,
ties broken in favour of the first-encountered one (Python `Counter`
preserves insertion order and `most_common` sorts stably by count). -/
def mostCommon (l : List Str) : Str :=
  match l with
  | [] => []
  | x :: xs =>
    (pyDedup (x :: xs)).foldl
      (fun b y => if (x :: xs).count y > (x :: xs).count b then y else b) x

/-- `pick_best_history` of ai_manager.py: majority vote per slot over the
correction history, falling back to `corrections` when no history exists. -/
def pick_best_history (corrections_history : List (List Str))
    (corrections : List Str) : List Str :=
  if corrections_history.length = 0 then corrections
  else (zipStar corrections_history).map mostCommon

/-- `history_entries_match` of ai_manager.py: true when every slot holds at
most one distinct value across all history entries. -/
def history_entries_match (corrections_history : List (List Str)) : Bool :=
  if corrections_history.length ≤ 1 then true
  else
    (zipStar corrections_history).all (fun slot => (pyDedup slot).length ≤ 1)

/-- The `matches` computation of `_generate_correction`: every paragraph's
accepted candidate equals its original text.  The source indexes
`corrections[index]` for each paragraph in turn; a missing index cannot occur
there because extracted candidate lists always have the bundle's length. -/
def matches_originals : List Paragraph → List Str → Bool
  | [], _ => true
  | p :: ps, c :: cs => (c == p.originalText) && matches_originals ps cs
  | _ :: _, [] => false

/-- State after one successful correction round of `_generate_correction`:
the partially-restored technical-retry budget, the updated history, the
remaining re-run budget, and whether the outer loop stops. -/
structure PostSuccess where
  technical_retries : Nat
  corrections_history : List (List Str)
  re_runs : Int
  stop : Bool
  deriving DecidableEq, Repr

/-- The code run by `_generate_correction` after each successfully parsed and
validated round (ai_manager.py lines 349-379): cap the technical-retry
budget at `RE_RUN_MAX_RETRIES`, append the accepted candidates to the
history, then decide whether to re-run. -/
def after_success (paragraph_bundle : List Paragraph) (corrections : List Str)
    (technical_retries : Nat) (re_runs : Int)
    (corrections_history : List (List Str)) : PostSuccess :=
  if re_runs ≤ 0 then
    ⟨min technical_retries RE_RUN_MAX_RETRIES, corrections_history ++ [corrections],
      re_runs, true⟩
  else if matches_originals paragraph_bundle corrections = true then
    ⟨min technical_retries RE_RUN_MAX_RETRIES, [], re_runs - 1, true⟩
  else if (corrections_history ++ [corrections]).length > 1 ∧
      history_entries_match (corrections_history ++ [corrections]) = true then
    ⟨min technical_retries RE_RUN_MAX_RETRIES, corrections_history ++ [corrections],
      re_runs - 1, true⟩
  else
    ⟨min technical_retries RE_RUN_MAX_RETRIES, corrections_history ++ [corrections],
      re_runs - 1, false⟩

/-- Python truthiness of the `manuallyCorrectedText` optional string: `None`
and the empty string are falsy. -/
def truthy : Option Str → Bool
  | none => false
  | some s => !s.isEmpty

/-- First per-paragraph step of `apply_corrections`: paragraphs still
`notGenerated` move to `generated`. -/
def promote_not_generated (p : Paragraph) : Paragraph :=
  if p.correctionStatus = CorrectionStatus.notGenerated then
    { p with correctionStatus := CorrectionStatus.generated }
  else p

/-- Second per-paragraph step of `apply_corrections`: a `rejected` paragraph
whose stored correction differs from the new one goes back to `generated`. -/
def reset_rejected (correction : Str) (p : Paragraph) : Paragraph :=
  if p.correctionStatus = CorrectionStatus.rejected ∧
      p.correctedText ≠ some correction then
    { p with correctionStatus := CorrectionStatus.generated }
  else p

/-- Third per-paragraph step of `apply_corrections`: outside `accepted`, a
truthy manual edit is cleared so the user sees the new AI correction. -/
def reset_manual_edit (p : Paragraph) : Paragraph :=
  if p.correctionStatus ≠ CorrectionStatus.accepted ∧
      truthy p.manuallyCorrectedText = true then
    { p with manuallyCorrectedText := none }
  else p

/-- Final per-paragraph step of `apply_corrections`: store or clear the
corrected text depending on whether the chosen text equals the original, and
settle the status. -/
def store_correction (correction : Str) (p : Paragraph) : Paragraph :=
  if correction = p.originalText then
    { p with
      correctedText := none
      correctionStatus :=
        if p.correctionStatus ≠ CorrectionStatus.accepted ∧
            p.correctionStatus ≠ CorrectionStatus.reviewed then
          CorrectionStatus.notRequired
        else p.correctionStatus }
  else
    { p with
      correctedText := some correction
      correctionStatus :=
        if p.correctionStatus = CorrectionStatus.notRequired then
          CorrectionStatus.generated
        else p.correctionStatus }

/-- The per-paragraph state update of `apply_corrections` (ai_manager.py
lines 649-676): the four updates of the loop body applied in source order. -/
def apply_one (paragraph : Paragraph) (correction : Str) : Paragraph :=
  store_correction correction
    (reset_manual_edit (reset_rejected correction (promote_not_generated paragraph)))

/-- `apply_corrections` of ai_manager.py: apply the chosen texts to the
paragraphs of the bundle, one per paragraph in order (the counters it also
maintains only feed log output). -/
def apply_corrections (paragraph_bundle : List Paragraph)
    (corrections : List Str) : List Paragraph :=
  List.zipWith apply_one paragraph_bundle corrections

/-- Adjacency invariant of a paragraph group: every neighbouring pair of
paragraphs has consecutive indices. -/
def adjacentIndices (g : List Paragraph) : Prop :=
  List.Chain' (fun a b => a.index + 1 = b.index) g

/-- The batch average tested by `validate_corrections`: mean of the relative
Levenshtein distances of all pairs. -/
def average_relative_dist (original corrections : List Str) : ℚ :=
  ((original.zip corrections).map (fun oc => relative_dist oc.1 oc.2)).sum /
    (original.length : ℚ)

/-- `r` is the first-encountered most frequent element of `slot`: it occurs
in `slot` preceded only by strictly less frequent elements, and nothing in
`slot` is more frequent. -/
def firstMaxSpec (slot : List Str) (r : Str) : Prop :=
  (∀ z ∈ slot, slot.count z ≤ slot.count r) ∧
  ∃ pre suf, slot = pre ++ r :: suf ∧ ∀ z ∈ pre, slot.count z < slot.count r

/-- The validator loop takes its early `return False` as soon as it reaches an
empty original, whatever the threshold and mode. -/
theorem relative_dists_none_of_empty_mem (threshold : ℚ) (amp : Bool) :
    ∀ original corrections : List Str, original.length = corrections.length →
      [] ∈ original →
      relative_dists threshold amp (original.zip corrections) = none := by
  intro original
  induction original with
  | nil => intro corrections _ h; simp at h
  | cons o os ih =>
    intro corrections hlen hmem
    cases corrections with
    | nil => simp at hlen
    | cons c cs =>
      by_cases h0 : (o : Str).length = 0
      · simp [relative_dists, h0]
      · have hnil : ([] : Str) ∈ os := by
          rcases List.mem_cons.mp hmem with ho | hos
          · exact absurd (congrArg List.length ho.symm) (by simpa using h0)
          · exact hos
        have ihn := ih cs (by simpa using hlen) hnil
        simp only [List.zip] at ihn
        simp only [List.zip_cons_cons, relative_dists]
        rw [if_neg h0, ihn]
        simp

/-- C10: if any original paragraph in the batch is the empty string,
`validate_corrections` returns `False` for every candidate list of the same
length, for every threshold and in both modes — even when the paired
candidate is itself empty. -/
theorem validate_corrections_empty_original (original corrections : List Str)
    (threshold : ℚ) (amp : Bool) (hlen : original.length = corrections.length)
    (hmem : [] ∈ original) :
    validate_corrections original corrections threshold amp = Except.ok false := by
  have hnone := relative_dists_none_of_empty_mem threshold amp original corrections
    hlen hmem
  have hne : ¬ original.length = 0 := by
    intro h0
    rw [List.length_eq_zero] at h0
    subst h0
    simp at hmem
  unfold validate_corrections
  rw [if_neg (by simp [hlen]), if_neg hne, hnone]

/-- Witness for C10 at a concrete input whose empty original is paired with an
identical empty candidate. -/
theorem validate_corrections_empty_original_witness :
    validate_corrections [[], str "a"] [[], str "a"] (1 / 2) false =
      Except.ok false :=
  validate_corrections_empty_original [[], str "a"] [[], str "a"] (1 / 2) false
    (by decide) (by decide)

/-- C7 (the code as written): after a successful round the technical-retry
budget is clamped by `min` to `RE_RUN_MAX_RETRIES` and therefore never
increases; in particular a budget of `0`, which is below the ceiling of `1`,
stays `0` even though re-runs remain. -/
theorem technical_retries_not_restored :
    (∀ (bundle : List Paragraph) (corrections : List Str) (tr : Nat) (re : Int)
      (hist : List (List Str)),
      (after_success bundle corrections tr re hist).technical_retries ≤ tr) ∧
    (after_success [mkPara 1 (str "a")] [str "b"] 0 2 []).technical_retries = 0 ∧
    (after_success [mkPara 1 (str "a")] [str "b"] 0 2 []).stop = false ∧
    0 < RE_RUN_MAX_RETRIES := by
  refine ⟨?_, by decide, by decide, by decide⟩
  intro bundle corrections tr re hist
  unfold after_success
  split
  · exact Nat.min_le_left _ _
  · split
    · exact Nat.min_le_left _ _
    · split
      · exact Nat.min_le_left _ _
      · exact Nat.min_le_left _ _

/-- `promote_not_generated` leaves `originalText` unchanged. -/
theorem promote_originalText (p : Paragraph) :
    (promote_not_generated p).originalText = p.originalText := by
  unfold promote_not_generated; split <;> rfl

/-- `promote_not_generated` leaves `correctedText` unchanged. -/
theorem promote_correctedText (p : Paragraph) :
    (promote_not_generated p).correctedText = p.correctedText := by
  unfold promote_not_generated; split <;> rfl

/-- `promote_not_generated` leaves `manuallyCorrectedText` unchanged. -/
theorem promote_manual (p : Paragraph) :
    (promote_not_generated p).manuallyCorrectedText = p.manuallyCorrectedText := by
  unfold promote_not_generated; split <;> rfl

/-- Status after `promote_not_generated`. -/
theorem promote_status (p : Paragraph) :
    (promote_not_generated p).correctionStatus =
      if p.correctionStatus = CorrectionStatus.notGenerated then
        CorrectionStatus.generated
      else p.correctionStatus := by
  unfold promote_not_generated; split <;> simp_all

/-- `reset_rejected` leaves `originalText` unchanged. -/
theorem reset_rejected_originalText (c : Str) (p : Paragraph) :
    (reset_rejected c p).originalText = p.originalText := by
  unfold reset_rejected; split <;> rfl

/-- `reset_rejected` leaves `correctedText` unchanged. -/
theorem reset_rejected_correctedText (c : Str) (p : Paragraph) :
    (reset_rejected c p).correctedText = p.correctedText := by
  unfold reset_rejected; split <;> rfl

/-- `reset_rejected` leaves `manuallyCorrectedText` unchanged. -/
theorem reset_rejected_manual (c : Str) (p : Paragraph) :
    (reset_rejected c p).manuallyCorrectedText = p.manuallyCorrectedText := by
  unfold reset_rejected; split <;> rfl

/-- Status after `reset_rejected`. -/
theorem reset_rejected_status (c : Str) (p : Paragraph) :
    (reset_rejected c p).correctionStatus =
      if p.correctionStatus = CorrectionStatus.rejected ∧
          p.correctedText ≠ some c then CorrectionStatus.generated
      else p.correctionStatus := by
  unfold reset_rejected; split <;> simp_all

/-- `reset_manual_edit` leaves `originalText` unchanged. -/
theorem reset_manual_originalText (p : Paragraph) :
    (reset_manual_edit p).originalText = p.originalText := by
  unfold reset_manual_edit; split <;> rfl

/-- `reset_manual_edit` leaves `correctedText` unchanged. -/
theorem reset_manual_correctedText (p : Paragraph) :
    (reset_manual_edit p).correctedText = p.correctedText := by
  unfold reset_manual_edit; split <;> rfl

/-- `reset_manual_edit` leaves the status unchanged. -/
theorem reset_manual_status (p : Paragraph) :
    (reset_manual_edit p).correctionStatus = p.correctionStatus := by
  unfold reset_manual_edit; split <;> rfl

/-- Manual-edit field after `reset_manual_edit`. -/
theorem reset_manual_manual (p : Paragraph) :
    (reset_manual_edit p).manuallyCorrectedText =
      if p.correctionStatus ≠ CorrectionStatus.accepted ∧
          truthy p.manuallyCorrectedText = true then none
      else p.manuallyCorrectedText := by
  unfold reset_manual_edit; split <;> simp_all

/-- `store_correction` leaves `originalText` unchanged. -/
theorem store_originalText (c : Str) (p : Paragraph) :
    (store_correction c p).originalText = p.originalText := by
  unfold store_correction; split <;> rfl

/-- `store_correction` leaves `manuallyCorrectedText` unchanged. -/
theorem store_manual (c : Str) (p : Paragraph) :
    (store_correction c p).manuallyCorrectedText = p.manuallyCorrectedText := by
  unfold store_correction; split <;> rfl

/-- Corrected text after `store_correction`. -/
theorem store_correctedText (c : Str) (p : Paragraph) :
    (store_correction c p).correctedText =
      if c = p.originalText then none else some c := by
  unfold store_correction; split <;> simp_all

/-- Status after `store_correction`. -/
theorem store_status (c : Str) (p : Paragraph) :
    (store_correction c p).correctionStatus =
      if c = p.originalText then
        (if p.correctionStatus ≠ CorrectionStatus.accepted ∧
            p.correctionStatus ≠ CorrectionStatus.reviewed then
          CorrectionStatus.notRequired
        else p.correctionStatus)
      else
        (if p.correctionStatus = CorrectionStatus.notRequired then
          CorrectionStatus.generated
        else p.correctionStatus) := by
  unfold store_correction; split <;> simp_all

/-- Per-paragraph form of the no-op branch of `apply_corrections`: when the
chosen text equals the original, `correctedText` is cleared and the status
moves to `notRequired` except for the human-authoritative `accepted` and
`reviewed`, which are preserved. -/
theorem apply_one_noop (p : Paragraph) (c : Str) (h : c = p.originalText) :
    (apply_one p c).correctedText = none ∧
    ((p.correctionStatus = CorrectionStatus.accepted ∨
        p.correctionStatus = CorrectionStatus.reviewed) →
      (apply_one p c).correctionStatus = p.correctionStatus) ∧
    (p.correctionStatus ≠ CorrectionStatus.accepted →
      p.correctionStatus ≠ CorrectionStatus.reviewed →
      (apply_one p c).correctionStatus = CorrectionStatus.notRequired) := by
  have horig : c =
      (reset_manual_edit (reset_rejected c (promote_not_generated p))).originalText := by
    rw [reset_manual_originalText, reset_rejected_originalText, promote_originalText, h]
  refine ⟨?_, ?_, ?_⟩
  · rw [apply_one, store_correctedText, if_pos horig]
  · intro hacc
    rw [apply_one, store_status, if_pos horig, reset_manual_status,
      reset_rejected_status, promote_status]
    rcases hacc with hacc | hacc <;> rw [hacc] <;> simp
  · intro h1 h2
    rw [apply_one, store_status, if_pos horig, reset_manual_status,
      reset_rejected_status, promote_status]
    clear horig
    cases hs : p.correctionStatus <;> simp_all <;> try (split <;> simp_all)

/-- Per-paragraph manual-override behaviour of `apply_corrections`: an
`accepted` paragraph keeps `manuallyCorrectedText`; for any other status a
truthy `manuallyCorrectedText` is cleared, regardless of whether the chosen
text equals the original. -/
theorem apply_one_manual (p : Paragraph) (c : Str) :
    (p.correctionStatus = CorrectionStatus.accepted →
      (apply_one p c).manuallyCorrectedText = p.manuallyCorrectedText) ∧
    (p.correctionStatus ≠ CorrectionStatus.accepted →
      truthy p.manuallyCorrectedText = true →
      (apply_one p c).manuallyCorrectedText = none) := by
  constructor
  · intro hacc
    rw [apply_one, store_manual, reset_manual_manual, reset_rejected_status,
      promote_status, reset_rejected_manual, promote_manual]
    rw [hacc]
    simp
  · intro hacc htr
    rw [apply_one, store_manual, reset_manual_manual, reset_rejected_status,
      promote_status, reset_rejected_manual, promote_manual]
    cases hs : p.correctionStatus <;> simp_all <;> try (split <;> simp_all)

/-- The bundle update of `apply_corrections` at position `i` is `apply_one`
of the paragraph and chosen text at `i`. -/
theorem apply_corrections_getD (bundle : List Paragraph) (corrections : List Str)
    (i : Nat) (h1 : i < bundle.length) (h2 : i < corrections.length) :
    (apply_corrections bundle corrections).getD i default =
      apply_one (bundle.getD i default) (corrections.getD i []) := by
  have hlen : i < (apply_corrections bundle corrections).length := by
    simp only [apply_corrections, List.length_zipWith, lt_min_iff]
    exact ⟨h1, h2⟩
  rw [List.getD_eq_getElem _ _ hlen, List.getD_eq_getElem _ _ h1,
    List.getD_eq_getElem _ _ h2]
  simp [apply_corrections, List.getElem_zipWith]

/-- C8: when the chosen text for a paragraph equals its `originalText`,
`apply_corrections` sets that paragraph's `correctedText` to `null` and its
status to `notRequired`, except for the preserved `accepted` and `reviewed`
statuses. -/
theorem apply_corrections_noop (bundle : List Paragraph) (corrections : List Str)
    (i : Nat) (h1 : i < bundle.length) (h2 : i < corrections.length)
    (heq : corrections.getD i [] = (bundle.getD i default).originalText) :
    ((apply_corrections bundle corrections).getD i default).correctedText = none ∧
    (((bundle.getD i default).correctionStatus = CorrectionStatus.accepted ∨
        (bundle.getD i default).correctionStatus = CorrectionStatus.reviewed) →
      ((apply_corrections bundle corrections).getD i default).correctionStatus =
        (bundle.getD i default).correctionStatus) ∧
    ((bundle.getD i default).correctionStatus ≠ CorrectionStatus.accepted →
      (bundle.getD i default).correctionStatus ≠ CorrectionStatus.reviewed →
      ((apply_corrections bundle corrections).getD i default).correctionStatus =
        CorrectionStatus.notRequired) := by
  rw [apply_corrections_getD bundle corrections i h1 h2]
  exact apply_one_noop _ _ heq

/-- Witness for C8: a `generated` paragraph whose chosen text equals its
original ends with no `correctedText` and status `notRequired`. -/
theorem apply_corrections_noop_witness :
    ((apply_corrections [⟨0, 1, str "abc", some (str "abd"), none, 0,
        CorrectionStatus.generated⟩] [str "abc"]).getD 0 default).correctedText
      = none ∧
    ((⟨0, 1, str "abc", some (str "abd"), none, 0,
        CorrectionStatus.generated⟩ : Paragraph).correctionStatus =
          CorrectionStatus.accepted ∨
      (⟨0, 1, str "abc", some (str "abd"), none, 0,
        CorrectionStatus.generated⟩ : Paragraph).correctionStatus =
          CorrectionStatus.reviewed →
      ((apply_corrections [⟨0, 1, str "abc", some (str "abd"), none, 0,
          CorrectionStatus.generated⟩] [str "abc"]).getD 0
            default).correctionStatus =
        (⟨0, 1, str "abc", some (str "abd"), none, 0,
          CorrectionStatus.generated⟩ : Paragraph).correctionStatus) ∧
    ((⟨0, 1, str "abc", some (str "abd"), none, 0,
        CorrectionStatus.generated⟩ : Paragraph).correctionStatus ≠
          CorrectionStatus.accepted →
      (⟨0, 1, str "abc", some (str "abd"), none, 0,
        CorrectionStatus.generated⟩ : Paragraph).correctionStatus ≠
          CorrectionStatus.reviewed →
      ((apply_corrections [⟨0, 1, str "abc", some (str "abd"), none, 0,
          CorrectionStatus.generated⟩] [str "abc"]).getD 0
            default).correctionStatus = CorrectionStatus.notRequired) := by
  have hb : (([str "abc"] : List Str).getD 0 []) =
      (([⟨0, 1, str "abc", some (str "abd"), none, 0,
        CorrectionStatus.generated⟩] : List Paragraph).getD 0
          default).originalText := by decide
  exact apply_corrections_noop _ _ 0 (by decide) (by decide) hb

/-- C9 amended: when the final answer is applied, an `accepted` paragraph
always keeps its `manuallyCorrectedText`; for every other paragraph a set
(non-empty) `manuallyCorrectedText` is always cleared — also in the branch
where the chosen text equals the paragraph's `originalText`. -/
theorem manual_override_clearing (bundle : List Paragraph) (corrections : List Str)
    (i : Nat) (h1 : i < bundle.length) (h2 : i < corrections.length) :
    ((bundle.getD i default).correctionStatus = CorrectionStatus.accepted →
      ((apply_corrections bundle corrections).getD i
          default).manuallyCorrectedText =
        (bundle.getD i default).manuallyCorrectedText) ∧
    ((bundle.getD i default).correctionStatus ≠ CorrectionStatus.accepted →
      ∀ s : Str, (bundle.getD i default).manuallyCorrectedText = some s → s ≠ [] →
      ((apply_corrections bundle corrections).getD i
          default).manuallyCorrectedText = none) := by
  rw [apply_corrections_getD bundle corrections i h1 h2]
  constructor
  · exact (apply_one_manual _ _).1
  · intro hacc s hset hne
    refine (apply_one_manual _ _).2 hacc ?_
    rw [hset]
    simpa [truthy] using hne

/-- Witness for C9 at a `generated` paragraph carrying a manual edit. -/
theorem manual_override_clearing_witness :
    ((⟨0, 1, str "abc", none, some (str "M"), 0,
        CorrectionStatus.generated⟩ : Paragraph).correctionStatus =
          CorrectionStatus.accepted →
      ((apply_corrections [⟨0, 1, str "abc", none, some (str "M"), 0,
          CorrectionStatus.generated⟩] [str "abc"]).getD 0
            default).manuallyCorrectedText =
        (⟨0, 1, str "abc", none, some (str "M"), 0,
          CorrectionStatus.generated⟩ : Paragraph).manuallyCorrectedText) ∧
    ((⟨0, 1, str "abc", none, some (str "M"), 0,
        CorrectionStatus.generated⟩ : Paragraph).correctionStatus ≠
          CorrectionStatus.accepted →
      ∀ s : Str, (⟨0, 1, str "abc", none, some (str "M"), 0,
          CorrectionStatus.generated⟩ : Paragraph).manuallyCorrectedText = some s →
        s ≠ [] →
      ((apply_corrections [⟨0, 1, str "abc", none, some (str "M"), 0,
          CorrectionStatus.generated⟩] [str "abc"]).getD 0
            default).manuallyCorrectedText = none) :=
  manual_override_clearing
    [⟨0, 1, str "abc", none, some (str "M"), 0, CorrectionStatus.generated⟩]
    [str "abc"] 0 (by decide) (by decide)

/-- Counterexample for C9 as stated: a non-`accepted` paragraph with a set
manual edit, whose chosen text equals its `originalText`, still has its
`manuallyCorrectedText` cleared (the clearing happens before the no-op
branch), so the manual edit is not left untouched there. -/
theorem manual_override_clearing_cex :
    (⟨0, 1, str "O", none, some (str "M"), 0,
        CorrectionStatus.generated⟩ : Paragraph).correctionStatus ≠
      CorrectionStatus.accepted ∧
    str "O" = (⟨0, 1, str "O", none, some (str "M"), 0,
        CorrectionStatus.generated⟩ : Paragraph).originalText ∧
    (⟨0, 1, str "O", none, some (str "M"), 0,
        CorrectionStatus.generated⟩ : Paragraph).manuallyCorrectedText =
      some (str "M") ∧
    ((apply_corrections [⟨0, 1, str "O", none, some (str "M"), 0,
        CorrectionStatus.generated⟩] [str "O"]).getD 0
          default).manuallyCorrectedText = none ∧
    some (str "M") ≠ (none : Option Str) := by
  refine ⟨by decide, by decide, by decide, ?_, by decide⟩
  rfl

/-- `lastIndexD` returns the index of the last paragraph. -/
theorem lastIndexD_eq : ∀ (l : List Paragraph) (p : Paragraph),
    l.getLast? = some p → lastIndexD l = p.index := by
  intro l
  induction l with
  | nil => intro p h; simp at h
  | cons a rest ih =>
    intro p h
    cases rest with
    | nil => simp at h; simp [lastIndexD, h]
    | cons b rest2 =>
      rw [List.getLast?_cons_cons] at h
      exact ih p h

/-- `chunkLen` distributes over append. -/
theorem chunkLen_append (l1 l2 : List Paragraph) :
    chunkLen (l1 ++ l2) = chunkLen l1 + chunkLen l2 := by
  simp [chunkLen]

/-- Invariant-carrying specification of the `chunked_paragraphs` loop. -/
theorem chunkGo_spec (chunk_size : Nat) :
    ∀ (ps cur : List Paragraph) (size : Nat), size = chunkLen cur →
      adjacentIndices cur → (chunk_size < chunkLen cur → cur.length = 1) →
      (chunkGo chunk_size ps cur size).flatten = cur ++ ps ∧
      ∀ g ∈ chunkGo chunk_size ps cur size,
        g ≠ [] ∧ adjacentIndices g ∧ (chunk_size < chunkLen g → g.length = 1) := by
  intro ps
  induction ps with
  | nil =>
    intro cur size hsize hadj hover
    by_cases hc : cur.isEmpty
    · rw [List.isEmpty_iff] at hc
      subst hc
      simp [chunkGo]
    · rw [show chunkGo chunk_size [] cur size = [cur] by simp [chunkGo, hc]]
      refine ⟨by simp, ?_⟩
      intro g hg
      rw [List.mem_singleton] at hg
      subst hg
      exact ⟨by simpa [List.isEmpty_iff] using hc, hadj, hover⟩
  | cons p rest ih =>
    intro cur size hsize hadj hover
    by_cases hcond : (size + p.originalText.length > chunk_size ∧ cur ≠ []) ∨
        (cur ≠ [] ∧ lastIndexD cur + 1 ≠ p.index)
    · rw [show chunkGo chunk_size (p :: rest) cur size =
          cur :: chunkGo chunk_size rest [p] p.originalText.length by
        simp [chunkGo, hcond]]
      have hcur : cur ≠ [] := by rcases hcond with ⟨_, h⟩ | ⟨h, _⟩ <;> exact h
      obtain ⟨ihf, ihg⟩ := ih [p] p.originalText.length
        (by simp [chunkLen]) (by simp [adjacentIndices]) (by simp)
      refine ⟨by simp [ihf], ?_⟩
      intro g hg
      rcases List.mem_cons.mp hg with hg | hg
      · subst hg
        exact ⟨hcur, hadj, hover⟩
      · exact ihg g hg
    · rw [show chunkGo chunk_size (p :: rest) cur size =
          chunkGo chunk_size rest (cur ++ [p])
            (size + p.originalText.length) by simp [chunkGo, hcond]]
      push_neg at hcond
      obtain ⟨h1, h2⟩ := hcond
      have hadj2 : adjacentIndices (cur ++ [p]) := by
        rcases eq_or_ne cur [] with hc | hc
        · subst hc; simp [adjacentIndices]
        · have hlink := h2 hc
          rw [adjacentIndices, List.chain'_append]
          refine ⟨hadj, by simp, ?_⟩
          intro x hx y hy
          rw [List.head?_cons, Option.mem_some_iff] at hy
          subst hy
          rw [Option.mem_def] at hx
          rw [← lastIndexD_eq cur x hx]
          exact hlink
      have hover2 : chunk_size < chunkLen (cur ++ [p]) → (cur ++ [p]).length = 1 := by
        intro hbig
        rcases eq_or_ne cur [] with hc | hc
        · subst hc; simp
        · exfalso
          have hle : ¬ (size + p.originalText.length > chunk_size) := fun hgt =>
            hc (h1 hgt)
          rw [chunkLen_append] at hbig
          have hck : chunkLen [p] = p.originalText.length := by simp [chunkLen]
          omega
      obtain ⟨ihf, ihg⟩ := ih (cur ++ [p]) (size + p.originalText.length)
        (by rw [chunkLen_append, hsize]; simp [chunkLen]) hadj2 hover2
      refine ⟨?_, ihg⟩
      rw [ihf]
      simp

/-- C3: `chunked_paragraphs` partitions the input: concatenating the groups
in order reproduces the input exactly, no group is empty, paragraphs inside a
group have consecutive indices, and a group whose combined original-text
length exceeds the chunk size is a single paragraph. -/
theorem chunked_paragraphs_spec (paragraphs : List Paragraph) (chunk_size : Nat) :
    (chunked_paragraphs paragraphs chunk_size).flatten = paragraphs ∧
    ∀ g ∈ chunked_paragraphs paragraphs chunk_size,
      g ≠ [] ∧ adjacentIndices g ∧ (chunk_size < chunkLen g → g.length = 1) := by
  have h := chunkGo_spec chunk_size paragraphs [] 0 (by simp [chunkLen])
    (by simp [adjacentIndices]) (by simp [chunkLen])
  simpa [chunked_paragraphs] using h

/-- Witness for C3 at a concrete two-paragraph input with an index gap. -/
theorem chunked_paragraphs_spec_witness :
    (chunked_paragraphs [mkPara 1 (str "ab"), mkPara 3 (str "cd")] 100).flatten =
      [mkPara 1 (str "ab"), mkPara 3 (str "cd")] :=
  (chunked_paragraphs_spec [mkPara 1 (str "ab"), mkPara 3 (str "cd")] 100).1

/-- C2: whenever `extract_corrections` fails — that is, none of the fallback
stages produced the expected segment count — the raised `ParseError` carries
the expected paragraph count and the actual segment count of the first
split; in particular, with two expected paragraphs and a response that is a
single segment with no recognizable preamble, it raises `ParseError 2 1`
rather than returning. -/
theorem extract_corrections_failure :
    (∀ (bundle : List Paragraph) (response : Str) (e : ParseError),
      extract_corrections bundle response = Except.error e →
      e.expected = bundle.length ∧ e.actual = (initial_parts response).length) ∧
    extract_corrections [mkPara 1 (str "a"), mkPara 2 (str "b")]
      (str "This is a single segment with no recognizable preamble.") =
      Except.error ⟨2, 1⟩ := by
  constructor
  · intro bundle response e h
    unfold extract_corrections at h
    repeat' split at h
    all_goals cases h
    exact ⟨rfl, rfl⟩
  · rfl

/-- Witness for C2: the generic conjunct applied at the concrete failing
response of the particular conjunct. -/
theorem extract_corrections_failure_witness :
    (ParseError.mk 2 1).expected =
      ([mkPara 1 (str "a"), mkPara 2 (str "b")] : List Paragraph).length ∧
    (ParseError.mk 2 1).actual =
      (initial_parts
        (str "This is a single segment with no recognizable preamble.")).length :=
  extract_corrections_failure.1 [mkPara 1 (str "a"), mkPara 2 (str "b")]
    (str "This is a single segment with no recognizable preamble.") ⟨2, 1⟩
    extract_corrections_failure.2

/-- With `all_must_pass` off and no empty original, the validator loop
completes and collects exactly the relative distances of all pairs. -/
theorem relative_dists_eq_map (threshold : ℚ) :
    ∀ pairs : List (Str × Str), (∀ oc ∈ pairs, oc.1 ≠ []) →
      relative_dists threshold false pairs =
        some (pairs.map (fun oc => relative_dist oc.1 oc.2)) := by
  intro pairs
  induction pairs with
  | nil => simp [relative_dists]
  | cons oc rest ih =>
    intro h
    obtain ⟨o, c⟩ := oc
    have ho : o ≠ [] := h (o, c) (List.mem_cons_self _ _)
    have h0 : ¬ (o : Str).length = 0 := by
      simpa [List.length_eq_zero] using ho
    have ihr := ih (fun x hx => h x (List.mem_cons_of_mem _ hx))
    simp [relative_dists, h0, ihr]

/-- With `all_must_pass` on, a pair over the threshold makes the loop return
early with `none` (given no empty original cuts it even earlier). -/
theorem relative_dists_none_of_over (threshold : ℚ) :
    ∀ pairs : List (Str × Str), (∃ oc ∈ pairs, threshold < relative_dist oc.1 oc.2) →
      relative_dists threshold true pairs = none := by
  intro pairs
  induction pairs with
  | nil => intro h; simp at h
  | cons oc rest ih =>
    intro h
    obtain ⟨o, c⟩ := oc
    by_cases h0 : (o : Str).length = 0
    · simp [relative_dists, h0]
    · by_cases hover : threshold < relative_dist o c
      · simp [relative_dists, h0, hover]
      · have hrest : ∃ x ∈ rest, threshold < relative_dist x.1 x.2 := by
          obtain ⟨x, hx, hxover⟩ := h
          rcases List.mem_cons.mp hx with hx | hx
          · subst hx; exact absurd hxover hover
          · exact ⟨x, hx, hxover⟩
        simp [relative_dists, h0, hover, ih hrest]

/-- C4: for equal-length batches with non-empty originals,
`validate_corrections` at threshold one half with `all_must_pass` off accepts
exactly when the average relative Levenshtein distance is at most one half;
with `all_must_pass` on, any single pair over the threshold rejects the
batch.  Concretely, the one-character transposition `"hello wrold"` passes
and `"completely different text entirely"` fails. -/
theorem validate_corrections_spec :
    (∀ original corrections : List Str,
      original.length = corrections.length → (∀ o ∈ original, o ≠ []) →
      (validate_corrections original corrections DEFAULT_THRESHOLD false =
          Except.ok true ↔
        average_relative_dist original corrections ≤ DEFAULT_THRESHOLD)) ∧
    (∀ original corrections : List Str,
      original.length = corrections.length →
      (∃ oc ∈ original.zip corrections,
        DEFAULT_THRESHOLD < relative_dist oc.1 oc.2) →
      validate_corrections original corrections DEFAULT_THRESHOLD true =
        Except.ok false) ∧
    validate_corrections [str "hello world"] [str "hello wrold"]
      DEFAULT_THRESHOLD false = Except.ok true ∧
    validate_corrections [str "hello world"]
      [str "completely different text entirely"] DEFAULT_THRESHOLD false =
      Except.ok false := by
  have key : ∀ original corrections : List Str,
      original.length = corrections.length → (∀ o ∈ original, o ≠ []) →
      (validate_corrections original corrections DEFAULT_THRESHOLD false =
          Except.ok true ↔
        average_relative_dist original corrections ≤ DEFAULT_THRESHOLD) := by
    intro original corrections hlen hne
    rcases eq_or_ne original [] with horig | horig
    · subst horig
      have hc : corrections = [] := by
        rw [← List.length_eq_zero]
        exact hlen.symm
      subst hc
      simp [validate_corrections, average_relative_dist, DEFAULT_THRESHOLD]
    · have h0 : ¬ original.length = 0 := by
        simpa [List.length_eq_zero] using horig
      have hzip : ∀ oc ∈ original.zip corrections, oc.1 ≠ [] := by
        intro oc hoc
        exact hne oc.1 (List.of_mem_zip hoc).1
      have hsome := relative_dists_eq_map DEFAULT_THRESHOLD
        (original.zip corrections) hzip
      unfold validate_corrections average_relative_dist
      rw [if_neg (by simp [hlen]), if_neg h0, hsome]
      dsimp only
      by_cases havg : (List.map (fun oc => relative_dist oc.1 oc.2)
          (original.zip corrections)).sum / (original.length : ℚ) ≤
          DEFAULT_THRESHOLD
      · rw [if_neg (not_lt.mpr havg)]
        simp [havg]
      · rw [if_pos (lt_of_not_le havg)]
        simp [havg]
  refine ⟨key, ?_, ?_, ?_⟩
  · intro original corrections hlen hover
    have hnil : original ≠ [] := by
      intro h0
      subst h0
      simp at hover
    have h0 : ¬ original.length = 0 := by
      simpa [List.length_eq_zero] using hnil
    have hnone := relative_dists_none_of_over DEFAULT_THRESHOLD
      (original.zip corrections) hover
    unfold validate_corrections
    rw [if_neg (by simp [hlen]), if_neg h0, hnone]
  · rw [key [str "hello world"] [str "hello wrold"] (by rfl)
      (by intro o ho; simp at ho; subst ho; decide)]
    have hd : levenshtein_distance (str "hello world") (str "hello wrold") = 2 := by
      decide
    have hlen11 : (str "hello world").length = 11 := by decide
    simp [average_relative_dist, relative_dist, hd, hlen11, DEFAULT_THRESHOLD]
    norm_num
  · rw [show validate_corrections [str "hello world"]
        [str "completely different text entirely"] DEFAULT_THRESHOLD false =
        Except.ok false ↔ ¬ (validate_corrections [str "hello world"]
          [str "completely different text entirely"] DEFAULT_THRESHOLD false =
          Except.ok true) by
      unfold validate_corrections
      split <;> simp_all <;> split <;> simp_all]
    rw [key [str "hello world"] [str "completely different text entirely"] (by rfl)
      (by intro o ho; simp at ho; subst ho; decide)]
    have hd : levenshtein_distance (str "hello world")
        (str "completely different text entirely") = 29 := by decide
    have hlen11 : (str "hello world").length = 11 := by decide
    simp [average_relative_dist, relative_dist, hd, hlen11, DEFAULT_THRESHOLD]
    norm_num

/-- Witness for C4: the average-form equivalence applied at a concrete
identical pair, whose average distance is zero. -/
theorem validate_corrections_spec_witness :
    validate_corrections [str "ab"] [str "ab"] DEFAULT_THRESHOLD false =
        Except.ok true ↔
      average_relative_dist [str "ab"] [str "ab"] ≤ DEFAULT_THRESHOLD :=
  validate_corrections_spec.1 [str "ab"] [str "ab"] (by rfl)
    (by intro o ho; simp at ho; subst ho; decide)

/-- The selection fold of `mostCommon` (strict comparison against the
running best) returns an element of `b :: ys` such that all elements before
its first selection have strictly smaller count in `base` and all following
ones at most its count — Python `Counter.most_common`'s stable maximum. -/
theorem foldl_first_max (base : List Str) :
    ∀ (ys : List Str) (b : Str),
      ∃ pre suf,
        b :: ys =
          pre ++ (ys.foldl
            (fun v y => if base.count y > base.count v then y else v) b) :: suf ∧
        (∀ z ∈ pre, base.count z <
          base.count (ys.foldl
            (fun v y => if base.count y > base.count v then y else v) b)) ∧
        (∀ z ∈ suf, base.count z ≤
          base.count (ys.foldl
            (fun v y => if base.count y > base.count v then y else v) b)) := by
  intro ys
  induction ys with
  | nil =>
    intro b
    exact ⟨[], [], rfl, by simp, by simp⟩
  | cons y ys ih =>
    intro b
    rw [List.foldl_cons]
    show ∃ pre suf, b :: y :: ys =
        pre ++ (ys.foldl _ (if base.count y > base.count b then y else b)) :: suf ∧ _
    by_cases hyb : base.count y > base.count b
    · rw [if_pos hyb]
      obtain ⟨pre, suf, hdec, hpre, hsuf⟩ := ih y
      have hall : ∀ z ∈ y :: ys, base.count z ≤
          base.count (ys.foldl
            (fun v y => if base.count y > base.count v then y else v) y) := by
        intro z hz
        rw [hdec] at hz
        rcases List.mem_append.mp hz with hz | hz
        · exact le_of_lt (hpre z hz)
        · rcases List.mem_cons.mp hz with hz | hz
          · rw [hz]
          · exact hsuf z hz
      refine ⟨b :: pre, suf, ?_, ?_, hsuf⟩
      · rw [List.cons_append, ← hdec]
      · intro z hz
        rcases List.mem_cons.mp hz with hz | hz
        · rw [hz]
          exact lt_of_lt_of_le hyb (hall y (List.mem_cons_self _ _))
        · exact hpre z hz
    · rw [if_neg hyb]
      obtain ⟨pre, suf, hdec, hpre, hsuf⟩ := ih b
      cases pre with
      | nil =>
        rw [List.nil_append] at hdec
        injection hdec with h1 h2
        refine ⟨[], y :: suf, ?_, by simp, ?_⟩
        · rw [List.nil_append, ← h1, h2]
        · intro z hz
          rcases List.mem_cons.mp hz with hz | hz
          · rw [hz, ← h1]
            exact not_lt.mp hyb
          · exact hsuf z hz
      | cons q pre2 =>
        rw [List.cons_append] at hdec
        injection hdec with h1 h2
        refine ⟨b :: y :: pre2, suf, ?_, ?_, hsuf⟩
        · rw [List.cons_append, List.cons_append, ← h2]
        · intro z hz
          have hqlt : base.count q <
              base.count (ys.foldl
                (fun v y => if base.count y > base.count v then y else v) b) :=
            hpre q (List.mem_cons_self _ _)
          have hcb : base.count b = base.count q := by rw [h1]
          have hblt : base.count b <
              base.count (ys.foldl
                (fun v y => if base.count y > base.count v then y else v) b) := by
            rw [hcb]
            exact hqlt
          rcases List.mem_cons.mp hz with hz | hz
          · rw [hz]
            exact hblt
          · rcases List.mem_cons.mp hz with hz2 | hz2
            · rw [hz2]
              exact lt_of_le_of_lt (not_lt.mp hyb) hblt
            · exact hpre z (List.mem_cons_of_mem _ hz2)

/-- Elements returned by the de-duplication worker come from its input. -/
theorem pyDedupGo_subset : ∀ (l seen : List Str) (z : Str),
    z ∈ pyDedupGo l seen → z ∈ l := by
  intro l
  induction l with
  | nil => intro seen z h; simp [pyDedupGo] at h
  | cons x xs ih =>
    intro seen z h
    simp only [pyDedupGo] at h
    by_cases hx : x ∈ seen
    · rw [if_pos hx] at h
      exact List.mem_cons_of_mem _ (ih seen z h)
    · rw [if_neg hx] at h
      rcases List.mem_cons.mp h with h | h
      · rw [h]
        exact List.mem_cons_self _ _
      · exact List.mem_cons_of_mem _ (ih (x :: seen) z h)

/-- Every unseen element of the input survives de-duplication. -/
theorem mem_pyDedupGo : ∀ (l seen : List Str) (z : Str),
    z ∈ l → z ∉ seen → z ∈ pyDedupGo l seen := by
  intro l
  induction l with
  | nil => intro seen z h; simp at h
  | cons x xs ih =>
    intro seen z hz hns
    simp only [pyDedupGo]
    by_cases hx : x ∈ seen
    · rw [if_pos hx]
      rcases List.mem_cons.mp hz with hz | hz
      · rw [hz] at hns
        exact absurd hx hns
      · exact ih seen z hz hns
    · rw [if_neg hx]
      rcases List.mem_cons.mp hz with hz | hz
      · rw [hz]
        exact List.mem_cons_self _ _
      · rcases eq_or_ne z x with hzx | hzx
        · rw [hzx]
          exact List.mem_cons_self _ _
        · exact List.mem_cons_of_mem _ (ih (x :: seen) z hz (by simp [hns, hzx]))

/-- The de-duplication worker returns nothing exactly when everything was
already seen. -/
theorem pyDedupGo_eq_nil : ∀ (l seen : List Str),
    pyDedupGo l seen = [] ↔ ∀ z ∈ l, z ∈ seen := by
  intro l
  induction l with
  | nil => intro seen; simp [pyDedupGo]
  | cons x xs ih =>
    intro seen
    simp only [pyDedupGo]
    by_cases hx : x ∈ seen
    · rw [if_pos hx, ih seen]
      constructor
      · intro h z hz
        rcases List.mem_cons.mp hz with hz | hz
        · rw [hz]; exact hx
        · exact h z hz
      · intro h z hz
        exact h z (List.mem_cons_of_mem _ hz)
    · rw [if_neg hx]
      constructor
      · intro h
        exact absurd h (List.cons_ne_nil _ _)
      · intro h
        exact absurd (h x (List.mem_cons_self _ _)) hx

/-- A decomposition of the de-duplicated list lifts to a decomposition of the
input in which everything before `r` was already in the decomposition's
prefix or previously seen. -/
theorem pyDedupGo_decomp : ∀ (l seen pre suf : List Str) (r : Str),
    pyDedupGo l seen = pre ++ r :: suf →
    ∃ pre2 suf2, l = pre2 ++ r :: suf2 ∧ ∀ z ∈ pre2, z ∈ pre ∨ z ∈ seen := by
  intro l
  induction l with
  | nil =>
    intro seen pre suf r h
    cases pre <;> simp [pyDedupGo] at h
  | cons x xs ih =>
    intro seen pre suf r h
    simp only [pyDedupGo] at h
    by_cases hx : x ∈ seen
    · rw [if_pos hx] at h
      obtain ⟨pre2, suf2, hdec, hsub⟩ := ih seen pre suf r h
      refine ⟨x :: pre2, suf2, by rw [List.cons_append, ← hdec], ?_⟩
      intro z hz
      rcases List.mem_cons.mp hz with hz | hz
      · right
        rw [hz]
        exact hx
      · exact hsub z hz
    · rw [if_neg hx] at h
      cases pre with
      | nil =>
        rw [List.nil_append] at h
        injection h with h1 h2
        exact ⟨[], xs, by rw [List.nil_append, h1], by simp⟩
      | cons q pre2 =>
        rw [List.cons_append] at h
        injection h with h1 h2
        obtain ⟨pre2x, suf2, hdec, hsub⟩ := ih (x :: seen) pre2 suf r h2
        refine ⟨x :: pre2x, suf2, by rw [List.cons_append, ← hdec], ?_⟩
        intro z hz
        rcases List.mem_cons.mp hz with hz | hz
        · left
          rw [hz, h1]
          exact List.mem_cons_self _ _
        · rcases hsub z hz with hz2 | hz2
          · left
            exact List.mem_cons_of_mem _ hz2
          · rcases List.mem_cons.mp hz2 with hz3 | hz3
            · left
              rw [hz3, h1]
              exact List.mem_cons_self _ _
            · right
              exact hz3

/-- `mostCommon` returns the first-encountered most frequent element of a
non-empty list, matching `Counter.most_common(1)`'s stable tie-breaking. -/
theorem mostCommon_firstMax :
    ∀ slot : List Str, slot ≠ [] → firstMaxSpec slot (mostCommon slot) := by
  intro slot hne
  cases slot with
  | nil => exact absurd rfl hne
  | cons x xs =>
    have hfold : mostCommon (x :: xs) =
        (pyDedupGo xs [x]).foldl
          (fun v y => if (x :: xs).count y > (x :: xs).count v then y else v) x := by
      simp only [mostCommon, pyDedup, pyDedupGo]
      rw [if_neg (List.not_mem_nil x), List.foldl_cons, if_neg (lt_irrefl _)]
    obtain ⟨pre, suf, hdec, hpre, hsuf⟩ := foldl_first_max (x :: xs) (pyDedupGo xs [x]) x
    rw [firstMaxSpec, hfold]
    constructor
    · intro z hz
      have hzd : z ∈ x :: pyDedupGo xs [x] := by
        rcases List.mem_cons.mp hz with hz | hz
        · rw [hz]
          exact List.mem_cons_self _ _
        · rcases eq_or_ne z x with hzx | hzx
          · rw [hzx]
            exact List.mem_cons_self _ _
          · exact List.mem_cons_of_mem _ (mem_pyDedupGo xs [x] z hz (by simp [hzx]))
      rw [hdec] at hzd
      rcases List.mem_append.mp hzd with hz2 | hz2
      · exact le_of_lt (hpre z hz2)
      · rcases List.mem_cons.mp hz2 with hz3 | hz3
        · rw [hz3]
        · exact hsuf z hz3
    · have hdec0 : pyDedupGo (x :: xs) [] = pre ++
          ((pyDedupGo xs [x]).foldl
            (fun v y => if (x :: xs).count y > (x :: xs).count v then y else v) x)
            :: suf := by
        simp only [pyDedupGo]
        rw [if_neg (List.not_mem_nil x)]
        exact hdec
      obtain ⟨pre2, suf2, hdec2, hsub⟩ :=
        pyDedupGo_decomp (x :: xs) [] pre suf _ hdec0
      refine ⟨pre2, suf2, hdec2, ?_⟩
      intro z hz
      rcases hsub z hz with hz2 | hz2
      · exact hpre z hz2
      · simp at hz2

/-- Folding `min` over lists of one common length starting from that length
gives that length. -/
theorem foldl_min_const (L : Nat) :
    ∀ (xs : List (List Str)) (m : Nat), (∀ e ∈ xs, e.length = L) → m = L →
      xs.foldl (fun m e => min m e.length) m = L := by
  intro xs
  induction xs with
  | nil =>
    intro m _ hm
    simpa using hm
  | cons e xs ih =>
    intro m h hm
    rw [List.foldl_cons]
    refine ih _ (fun a ha => h a (List.mem_cons_of_mem _ ha)) ?_
    rw [hm, h e (List.mem_cons_self _ _)]
    simp

/-- C5: for a non-empty history of equal-length entries, `pick_best_history`
returns one string per slot, each the most frequent string across all
entries at that slot with frequency ties broken in favour of the
first-encountered string; an empty history returns the fallback corrections
unchanged; and the concrete majority example from the history
`[[A,B],[A,C],[A,C]]` with fallback `[A,B]` is `[A,C]`. -/
theorem pick_best_history_spec :
    (∀ (corrections_history : List (List Str)) (corrections : List Str) (L : Nat),
      corrections_history ≠ [] → (∀ e ∈ corrections_history, e.length = L) →
      (pick_best_history corrections_history corrections).length = L ∧
      ∀ j, j < L →
        firstMaxSpec (corrections_history.map (fun e => e.getD j []))
          ((pick_best_history corrections_history corrections).getD j [])) ∧
    (∀ corrections : List Str, pick_best_history [] corrections = corrections) ∧
    pick_best_history [[str "A", str "B"], [str "A", str "C"], [str "A", str "C"]]
      [str "A", str "B"] = [str "A", str "C"] := by
  refine ⟨?_, by intro c; rfl, by decide⟩
  intro hist corrections L hne hlen
  cases hist with
  | nil => exact absurd rfl hne
  | cons x xs =>
    have hmin : minLen (x :: xs) = L := by
      simp only [minLen]
      exact foldl_min_const L xs x.length
        (fun a ha => hlen a (List.mem_cons_of_mem _ ha))
        (hlen x (List.mem_cons_self _ _))
    have hpick : pick_best_history (x :: xs) corrections =
        (zipStar (x :: xs)).map mostCommon := by
      rw [pick_best_history, if_neg (by simp)]
    have hzip : zipStar (x :: xs) =
        (List.range L).map (fun j => (x :: xs).map (fun e => e.getD j [])) := by
      simp only [zipStar]
      rw [hmin]
    constructor
    · rw [hpick, hzip]
      simp
    · intro j hj
      rw [hpick, hzip]
      have hg : (((List.range L).map
            (fun j => (x :: xs).map (fun e => e.getD j []))).map mostCommon).getD j []
          = mostCommon ((x :: xs).map (fun e => e.getD j [])) := by
        rw [List.getD_eq_getElem _ _ (by simp [hj])]
        simp [hj]
      rw [hg]
      exact mostCommon_firstMax _ (by simp)

/-- Witness for C5 at a concrete two-entry history of one-slot entries. -/
theorem pick_best_history_spec_witness :
    (pick_best_history [[str "A"], [str "A"]] [str "B"]).length = 1 ∧
    ∀ j, j < 1 →
      firstMaxSpec (([[str "A"], [str "A"]] : List (List Str)).map
          (fun e => e.getD j []))
        ((pick_best_history [[str "A"], [str "A"]] [str "B"]).getD j []) :=
  pick_best_history_spec.1 [[str "A"], [str "A"]] [str "B"] 1 (by decide)
    (by decide)

/-- The first-occurrence de-duplication keeps at most one element exactly
when all elements are equal. -/
theorem pyDedup_length_le_one :
    ∀ l : List Str, (pyDedup l).length ≤ 1 ↔ ∀ a ∈ l, ∀ b ∈ l, a = b := by
  intro l
  cases l with
  | nil => simp [pyDedup, pyDedupGo]
  | cons x xs =>
    have h : pyDedup (x :: xs) = x :: pyDedupGo xs [x] := by
      simp only [pyDedup, pyDedupGo]
      rw [if_neg (List.not_mem_nil x)]
    rw [h]
    have hlen : (x :: pyDedupGo xs [x]).length ≤ 1 ↔ pyDedupGo xs [x] = [] := by
      simp [Nat.succ_le_succ_iff, List.length_eq_zero]
    rw [hlen, pyDedupGo_eq_nil]
    constructor
    · intro hall a ha b hb
      have hx : ∀ z ∈ x :: xs, z = x := by
        intro z hz
        rcases List.mem_cons.mp hz with hz | hz
        · exact hz
        · simpa using hall z hz
      rw [hx a ha, hx b hb]
    · intro hall z hz
      simp only [List.mem_singleton]
      exact hall z (List.mem_cons_of_mem _ hz) x (List.mem_cons_self _ _)

/-- For histories whose entries share one length, `history_entries_match`
decides exactly whether all history entries are equal (slot-wise identity of
equal-length lists is identity). -/
theorem history_entries_match_iff (L : Nat) :
    ∀ h : List (List Str), (∀ e ∈ h, e.length = L) →
      (history_entries_match h = true ↔ ∀ e1 ∈ h, ∀ e2 ∈ h, e1 = e2) := by
  intro h hlen
  by_cases hsmall : h.length ≤ 1
  · rw [history_entries_match, if_pos hsmall]
    cases h with
    | nil => simp
    | cons e rest =>
      cases rest with
      | nil => simp
      | cons f rest2 => simp at hsmall
  · rw [history_entries_match, if_neg hsmall]
    cases h with
    | nil => simp at hsmall
    | cons x xs =>
      have hmin : minLen (x :: xs) = L := by
        simp only [minLen]
        exact foldl_min_const L xs x.length
          (fun a ha => hlen a (List.mem_cons_of_mem _ ha))
          (hlen x (List.mem_cons_self _ _))
      have hzip : zipStar (x :: xs) =
          (List.range L).map (fun j => (x :: xs).map (fun e => e.getD j [])) := by
        simp only [zipStar]
        rw [hmin]
      rw [hzip, List.all_eq_true]
      constructor
      · intro hall e1 he1 e2 he2
        refine List.ext_getElem (by rw [hlen e1 he1, hlen e2 he2]) ?_
        intro j hj1 hj2
        have hj : j < L := by
          rw [← hlen e1 he1]
          exact hj1
        have hslot := hall ((x :: xs).map (fun e => e.getD j []))
          (List.mem_map.mpr ⟨j, List.mem_range.mpr hj, rfl⟩)
        have hpairs := (pyDedup_length_le_one _).mp (of_decide_eq_true hslot)
        have he1m : e1.getD j [] ∈ (x :: xs).map (fun e => e.getD j []) :=
          List.mem_map.mpr ⟨e1, he1, rfl⟩
        have he2m : e2.getD j [] ∈ (x :: xs).map (fun e => e.getD j []) :=
          List.mem_map.mpr ⟨e2, he2, rfl⟩
        have := hpairs _ he1m _ he2m
        rwa [List.getD_eq_getElem e1 [] hj1, List.getD_eq_getElem e2 [] hj2] at this
      · intro hall slot hslot
        rw [List.mem_map] at hslot
        obtain ⟨j, _, rfl⟩ := hslot
        simp only [decide_eq_true_eq]
        rw [pyDedup_length_le_one]
        intro a ha b hb
        rw [List.mem_map] at ha hb
        obtain ⟨e1, he1, rfl⟩ := ha
        obtain ⟨e2, he2, rfl⟩ := hb
        rw [hall e1 he1 e2 he2]

/-- `matches_originals` decides whether the candidate list is exactly the
originals, for lists of matching length. -/
theorem matches_originals_iff :
    ∀ (bundle : List Paragraph) (corrections : List Str),
      corrections.length = bundle.length →
      (matches_originals bundle corrections = true ↔
        corrections = bundle.map Paragraph.originalText) := by
  intro bundle
  induction bundle with
  | nil =>
    intro c hlen
    simp only [List.length_nil, List.length_eq_zero] at hlen
    subst hlen
    simp [matches_originals]
  | cons p ps ih =>
    intro c hlen
    cases c with
    | nil => simp at hlen
    | cons a cs =>
      simp only [matches_originals, Bool.and_eq_true, beq_iff_eq, List.map_cons,
        List.cons.injEq]
      rw [ih cs (by simpa using hlen)]

/-- C6 amended: after each successfully parsed and validated round, the
orchestrator stops re-running exactly when the re-run budget is exhausted, or
when every accepted candidate equals its paragraph's `originalText` (in which
case the accumulated history is discarded before final selection), or when
the history entries recorded so far (at least two) are all slot-wise
identical. -/
theorem after_success_stop_iff :
    (∀ (bundle : List Paragraph) (corrections : List Str) (tr : Nat) (re : Int)
      (hist : List (List Str)),
      corrections.length = bundle.length →
      (∀ e ∈ hist, e.length = bundle.length) →
      ((after_success bundle corrections tr re hist).stop = true ↔
        (re ≤ 0 ∨ corrections = bundle.map Paragraph.originalText ∨
          ((hist ++ [corrections]).length > 1 ∧
            ∀ e1 ∈ hist ++ [corrections], ∀ e2 ∈ hist ++ [corrections],
              e1 = e2)))) ∧
    (∀ (bundle : List Paragraph) (corrections : List Str) (tr : Nat) (re : Int)
      (hist : List (List Str)),
      ¬ re ≤ 0 → corrections.length = bundle.length →
      corrections = bundle.map Paragraph.originalText →
      (after_success bundle corrections tr re hist).corrections_history = []) := by
  constructor
  · intro bundle corrections tr re hist hclen hhlen
    have hall : ∀ e ∈ hist ++ [corrections], e.length = bundle.length := by
      intro e he
      rcases List.mem_append.mp he with he | he
      · exact hhlen e he
      · rw [List.mem_singleton.mp he]
        exact hclen
    unfold after_success
    by_cases hre : re ≤ 0
    · rw [if_pos hre]
      simp [hre]
    · rw [if_neg hre]
      by_cases hm : matches_originals bundle corrections = true
      · rw [if_pos hm]
        simp [hre, (matches_originals_iff bundle corrections hclen).mp hm]
      · by_cases hh : (hist ++ [corrections]).length > 1 ∧
            history_entries_match (hist ++ [corrections]) = true
        · rw [if_neg hm, if_pos hh]
          simp only [show (⟨min tr RE_RUN_MAX_RETRIES, hist ++ [corrections],
            re - 1, true⟩ : PostSuccess).stop = true from rfl, true_iff]
          right
          right
          exact ⟨hh.1,
            (history_entries_match_iff bundle.length _ hall).mp hh.2⟩
        · rw [if_neg hm, if_neg hh]
          simp only [show (⟨min tr RE_RUN_MAX_RETRIES, hist ++ [corrections],
            re - 1, false⟩ : PostSuccess).stop = false from rfl]
          constructor
          · intro hfalse
            exact absurd hfalse (by simp)
          · intro hrhs
            rcases hrhs with hrhs | hrhs | hrhs
            · exact absurd hrhs hre
            · exact absurd ((matches_originals_iff bundle corrections hclen).mpr
                hrhs) hm
            · exact absurd ⟨hrhs.1,
                (history_entries_match_iff bundle.length _ hall).mpr hrhs.2⟩ hh
  · intro bundle corrections tr re hist hre hclen hmatch
    unfold after_success
    rw [if_neg hre,
      if_pos ((matches_originals_iff bundle corrections hclen).mpr hmatch)]

/-- Witness for C6 at a concrete no-op round: one paragraph, candidate equal
to the original, budget remaining. -/
theorem after_success_stop_iff_witness :
    (after_success [mkPara 1 (str "O")] [str "O"] 1 1 []).stop = true ↔
      ((1 : Int) ≤ 0 ∨
        [str "O"] = [mkPara 1 (str "O")].map Paragraph.originalText ∨
        (([] ++ [[str "O"]] : List (List Str)).length > 1 ∧
          ∀ e1 ∈ ([] ++ [[str "O"]] : List (List Str)),
            ∀ e2 ∈ ([] ++ [[str "O"]] : List (List Str)), e1 = e2)) :=
  after_success_stop_iff.1 [mkPara 1 (str "O")] [str "O"] 1 1 [] (by decide)
    (by decide)

/-- Counterexample for C6 as stated: a reachable post-success state (re-run
budget remaining, candidates differing from the originals) whose updated
history ends in two identical entries, yet the orchestrator continues: the
code compares all history entries, not the last two. -/
theorem after_success_last_two_cex :
    (after_success [mkPara 1 (str "O")] [str "B"] 1 1
        [[str "A"], [str "B"]]).stop = false ∧
    (after_success [mkPara 1 (str "O")] [str "B"] 1 1
        [[str "A"], [str "B"]]).corrections_history =
      [[str "A"], [str "B"], [str "B"]] ∧
    ([[str "A"], [str "B"], [str "B"]] : List (List Str)).getD 1 [] =
      ([[str "A"], [str "B"], [str "B"]] : List (List Str)).getD 2 [] ∧
    ¬ ((1 : Int) ≤ 0) ∧
    [str "B"] ≠ [mkPara 1 (str "O")].map Paragraph.originalText := by
  refine ⟨?_, ?_, by decide, by decide, by decide⟩ <;> rfl

/-- The splitter always returns at least one (possibly empty) segment. -/
theorem pySplitFuel_ne_nil (d : Char) (ds : Str) :
    ∀ (fuel : Nat) (s : Str), pySplitFuel d ds fuel s ≠ [] := by
  intro fuel
  induction fuel with
  | zero =>
    intro s
    cases s <;> simp [pySplitFuel]
  | succ f ih =>
    intro s
    cases s with
    | nil => simp [pySplitFuel]
    | cons c rest =>
      simp only [pySplitFuel]
      split
      · simp
      · split
        · simp
        · simp

/-- Any fuel at least the string length gives the same split. -/
theorem pySplitFuel_fuel_irrel (d : Char) (ds : Str) :
    ∀ (f1 : Nat) (s : Str) (f2 : Nat), s.length ≤ f1 → s.length ≤ f2 →
      pySplitFuel d ds f1 s = pySplitFuel d ds f2 s := by
  intro f1
  induction f1 with
  | zero =>
    intro s f2 h1 _
    have hs : s = [] := by
      rw [← List.length_eq_zero]
      omega
    subst hs
    cases f2 <;> rfl
  | succ f ih =>
    intro s f2 h1 h2
    cases s with
    | nil => cases f2 <;> rfl
    | cons c rest =>
      cases f2 with
      | zero =>
        exfalso
        simp [List.length_cons] at h2
      | succ g =>
        simp only [pySplitFuel]
        have hr1 : rest.length ≤ f := by
          simp only [List.length_cons] at h1
          omega
        have hr2 : rest.length ≤ g := by
          simp only [List.length_cons] at h2
          omega
        by_cases hc : (d :: ds).isPrefixOf (c :: rest) = true
        · rw [if_pos hc, if_pos hc]
          have hd1 : (rest.drop ds.length).length ≤ f := by
            rw [List.length_drop]
            omega
          have hd2 : (rest.drop ds.length).length ≤ g := by
            rw [List.length_drop]
            omega
          rw [ih _ g hd1 hd2]
        · rw [if_neg hc, if_neg hc, ih rest g hr1 hr2]

/-- Scanning across a region with no separator occurrence prepends that
region to the first segment of the rest of the split. -/
theorem pySplitFuel_scan (d : Char) (ds : Str) :
    ∀ (x t : Str) (fuel : Nat), (x ++ t).length ≤ fuel →
      (∀ a b : Str, x = a ++ b → b ≠ [] →
        ¬ ((d :: ds).isPrefixOf (b ++ t) = true)) →
      ∃ p ps, pySplitFuel d ds (fuel - x.length) t = p :: ps ∧
        pySplitFuel d ds fuel (x ++ t) = (x ++ p) :: ps := by
  intro x
  induction x with
  | nil =>
    intro t fuel hf _
    cases hsp : pySplitFuel d ds fuel t with
    | nil => exact absurd hsp (pySplitFuel_ne_nil d ds fuel t)
    | cons p ps =>
      exact ⟨p, ps, by simpa using hsp, by simpa using hsp⟩
  | cons c x2 ih =>
    intro t fuel hf hnm
    cases fuel with
    | zero =>
      exfalso
      simp [List.length_append, List.length_cons] at hf
    | succ f =>
      have hcond : ¬ ((d :: ds).isPrefixOf ((c :: x2) ++ t) = true) :=
        hnm [] (c :: x2) rfl (List.cons_ne_nil _ _)
      have hf2 : (x2 ++ t).length ≤ f := by
        simp only [List.length_append, List.length_cons] at hf ⊢
        omega
      obtain ⟨p, ps, h1, h2⟩ := ih t f hf2
        (fun a b hab hb => hnm (c :: a) b (by rw [hab, List.cons_append]) hb)
      refine ⟨p, ps, ?_, ?_⟩
      · have harith : f + 1 - (c :: x2).length = f - x2.length := by
          simp only [List.length_cons]
          omega
        rw [harith]
        exact h1
      · rw [List.cons_append]
        simp only [pySplitFuel]
        rw [if_neg (by rw [← List.cons_append]; exact hcond), h2]
        rfl

/-- A list is a Boolean prefix of itself followed by anything. -/
theorem isPrefixOf_append_self : ∀ l r : Str, l.isPrefixOf (l ++ r) = true := by
  intro l
  induction l with
  | nil => intro r; simp [List.isPrefixOf]
  | cons c l2 ih =>
    intro r
    simp only [List.cons_append, List.isPrefixOf, Bool.and_eq_true]
    exact ⟨by simp, ih r⟩

/-- Splitting a string that starts with the separator produces an empty
first segment and continues after the separator. -/
theorem pySplitFuel_sep_step (d : Char) (ds : Str) :
    ∀ (fuel : Nat) (r : Str),
      pySplitFuel d ds (fuel + 1) (d :: (ds ++ r)) =
        [] :: pySplitFuel d ds fuel r := by
  intro fuel r
  have hpre : (d :: ds).isPrefixOf (d :: (ds ++ r)) = true :=
    isPrefixOf_append_self (d :: ds) r
  simp only [pySplitFuel]
  rw [if_pos hpre, List.drop_left]

/-- Boolean prefix test as an existential decomposition. -/
theorem isPrefixOf_iff_exists :
    ∀ l1 l2 : Str, l1.isPrefixOf l2 = true ↔ ∃ t, l2 = l1 ++ t := by
  intro l1
  induction l1 with
  | nil =>
    intro l2
    simp [List.isPrefixOf]
  | cons c l ih =>
    intro l2
    cases l2 with
    | nil => simp [List.isPrefixOf]
    | cons b bs =>
      simp only [List.isPrefixOf, Bool.and_eq_true, beq_iff_eq, ih,
        List.cons_append, List.cons.injEq]
      constructor
      · rintro ⟨hcb, t, ht⟩
        exact ⟨t, hcb.symm, ht⟩
      · rintro ⟨t, hbc, ht⟩
        exact ⟨hbc.symm, t, ht⟩

/-- Substring test as an existential decomposition. -/
theorem strContains_iff :
    ∀ needle hay : Str, strContains needle hay = true ↔
      ∃ a b, hay = a ++ needle ++ b := by
  intro needle hay
  induction hay with
  | nil =>
    simp only [strContains, List.isEmpty_iff]
    constructor
    · intro h
      exact ⟨[], [], by simp [h]⟩
    · rintro ⟨a, b, h⟩
      rcases List.append_eq_nil.mp h.symm with ⟨h2, h3⟩
      rcases List.append_eq_nil.mp h2 with ⟨_, h4⟩
      exact h4
  | cons c rest ih =>
    simp only [strContains, Bool.or_eq_true, ih]
    constructor
    · rintro (hpre | ⟨a, b, hab⟩)
      · obtain ⟨t, ht⟩ := (isPrefixOf_iff_exists needle (c :: rest)).mp hpre
        exact ⟨[], t, by simpa using ht⟩
      · exact ⟨c :: a, b, by rw [hab, List.cons_append, List.cons_append]⟩
    · rintro ⟨a, b, hab⟩
      cases a with
      | nil =>
        left
        rw [isPrefixOf_iff_exists]
        exact ⟨b, by simpa using hab⟩
      | cons a0 a2 =>
        right
        rw [List.cons_append, List.cons_append] at hab
        injection hab with _ h2
        exact ⟨a2, b, h2⟩

/-- In the last segment (nothing follows), a string without `"---"` admits no
separator match at any scan position. -/
theorem no_sep_match_tail (x : Str)
    (h3 : strContains (['-', '-', '-'] : Str) x = false) :
    ∀ a b : Str, x = a ++ b → b ≠ [] →
      ¬ ((('-' : Char) :: ['-', '-']).isPrefixOf (b ++ ([] : Str)) = true) := by
  intro a b hab _ hpre
  rw [List.append_nil, isPrefixOf_iff_exists] at hpre
  obtain ⟨t2, ht2⟩ := hpre
  have hcon : strContains (['-', '-', '-'] : Str) x = true := by
    rw [strContains_iff]
    exact ⟨a, t2, by rw [hab, ht2, List.append_assoc]⟩
  rw [h3] at hcon
  exact absurd hcon (by simp)

/-- Before a separator, a string without `"---"` that does not end in a dash
admits no separator match at any scan position. -/
theorem no_sep_match_mid (x r : Str)
    (h3 : strContains (['-', '-', '-'] : Str) x = false)
    (hd : x.getLast? ≠ some '-') :
    ∀ a b : Str, x = a ++ b → b ≠ [] →
      ¬ ((('-' : Char) :: ['-', '-']).isPrefixOf
        (b ++ ((['-', '-', '-'] : Str) ++ r)) = true) := by
  intro a b hab hb hpre
  rw [isPrefixOf_iff_exists] at hpre
  obtain ⟨t2, ht2⟩ := hpre
  cases b with
  | nil => exact hb rfl
  | cons b1 b2 =>
    cases b2 with
    | nil =>
      rw [List.cons_append] at ht2
      injection ht2 with h1 _
      apply hd
      rw [hab, h1, List.getLast?_concat]
    | cons b2h b3 =>
      cases b3 with
      | nil =>
        rw [List.cons_append, List.cons_append] at ht2
        injection ht2 with hb1 ht3
        injection ht3 with hb2 _
        apply hd
        rw [hab, hb2,
          show a ++ [b1, '-'] = (a ++ [b1]) ++ ['-'] by simp,
          List.getLast?_concat]
      | cons b3h b4 =>
        rw [List.cons_append, List.cons_append, List.cons_append] at ht2
        injection ht2 with hb1 ht3
        injection ht3 with hb2 ht4
        injection ht4 with hb3 _
        have hcon : strContains (['-', '-', '-'] : Str) x = true := by
          rw [strContains_iff]
          refine ⟨a, b4, ?_⟩
          rw [hab, hb1, hb2, hb3]
          simp
        rw [h3] at hcon
        exact absurd hcon (by simp)

/-- Round trip of Python split over Python join: joining segments that
contain no `"---"` and do not end in `'-'` with the `"---"` separator and
splitting again recovers exactly the segments. -/
theorem pySplit_pyJoin :
    ∀ l : List Str,
      (∀ s ∈ l, strContains (['-', '-', '-'] : Str) s = false ∧
        s.getLast? ≠ some '-') →
      l ≠ [] →
      pySplit (['-', '-', '-'] : Str) (pyJoin (['-', '-', '-'] : Str) l) = l := by
  intro l
  induction l with
  | nil =>
    intro _ h
    exact absurd rfl h
  | cons x l2 ih =>
    intro hcond _
    have hx := hcond x (List.mem_cons_self _ _)
    cases l2 with
    | nil =>
      obtain ⟨p, ps, h1, h2⟩ := pySplitFuel_scan '-' ['-', '-'] x [] x.length
        (by simp) (no_sep_match_tail x hx.1)
      rw [Nat.sub_self] at h1
      rw [show pySplitFuel '-' ['-', '-'] 0 ([] : Str) = [[]] from rfl] at h1
      injection h1 with hp hps
      rw [List.append_nil] at h2
      show pySplitFuel '-' ['-', '-'] x.length x = [x]
      rw [h2, ← hp, ← hps, List.append_nil]
    | cons y l3 =>
      have hj : pyJoin (['-', '-', '-'] : Str) (x :: y :: l3) =
          x ++ ((['-', '-', '-'] : Str) ++ pyJoin (['-', '-', '-'] : Str) (y :: l3)) := by
        rw [pyJoin, List.append_assoc]
      obtain ⟨p, ps, h1, h2⟩ := pySplitFuel_scan '-' ['-', '-'] x
        ((['-', '-', '-'] : Str) ++ pyJoin (['-', '-', '-'] : Str) (y :: l3))
        (x ++ ((['-', '-', '-'] : Str) ++ pyJoin (['-', '-', '-'] : Str) (y :: l3))).length
        (le_refl _) (no_sep_match_mid x _ hx.1 hx.2)
      have hL : (x ++ ((['-', '-', '-'] : Str) ++
          pyJoin (['-', '-', '-'] : Str) (y :: l3))).length - x.length =
          (pyJoin (['-', '-', '-'] : Str) (y :: l3)).length + 3 := by
        simp only [List.length_append, List.length_cons, List.length_nil]
        omega
      rw [hL] at h1
      have hstep : pySplitFuel '-' ['-', '-']
          ((pyJoin (['-', '-', '-'] : Str) (y :: l3)).length + 3)
          ((['-', '-', '-'] : Str) ++ pyJoin (['-', '-', '-'] : Str) (y :: l3)) =
          [] :: pySplitFuel '-' ['-', '-']
            ((pyJoin (['-', '-', '-'] : Str) (y :: l3)).length + 2)
            (pyJoin (['-', '-', '-'] : Str) (y :: l3)) :=
        pySplitFuel_sep_step '-' ['-', '-'] _ _
      rw [hstep] at h1
      rw [pySplitFuel_fuel_irrel '-' ['-', '-'] _
        (pyJoin (['-', '-', '-'] : Str) (y :: l3))
        (pyJoin (['-', '-', '-'] : Str) (y :: l3)).length (by omega) (le_refl _)] at h1
      have hihres : pySplitFuel '-' ['-', '-']
          (pyJoin (['-', '-', '-'] : Str) (y :: l3)).length
          (pyJoin (['-', '-', '-'] : Str) (y :: l3)) = y :: l3 :=
        ih (fun s hs => hcond s (List.mem_cons_of_mem _ hs)) (List.cons_ne_nil _ _)
      rw [hihres] at h1
      injection h1 with hp hps
      show pySplitFuel '-' ['-', '-']
        (pyJoin (['-', '-', '-'] : Str) (x :: y :: l3)).length
        (pyJoin (['-', '-', '-'] : Str) (x :: y :: l3)) = x :: y :: l3
      rw [hj, h2, ← hp, ← hps, List.append_nil]

/-- Stripping and empty-dropping is the identity on lists of non-empty
already-stripped segments. -/
theorem nonempty_stripped_id :
    ∀ l : List Str, (∀ s ∈ l, pyStrip s = s ∧ s ≠ []) →
      nonempty_stripped l = l := by
  intro l
  induction l with
  | nil => intro _; rfl
  | cons s l2 ih =>
    intro h
    have hs := h s (List.mem_cons_self _ _)
    have hne : (!s.isEmpty) = true := by
      simp [List.isEmpty_iff, hs.2]
    have ht := ih (fun a ha => h a (List.mem_cons_of_mem _ ha))
    simp only [nonempty_stripped, List.map_cons, List.filter_cons, hs.1, hne, if_true]
    rw [show (List.map pyStrip l2).filter (fun p => !p.isEmpty) = l2 from ht]

/-- C1 amended: for every sequence of `expectedCount` non-empty strings that
are equal to their own whitespace-trimmed form, contain no `"---"` substring
and do not end in `'-'`, `extract_corrections` applied to the response built
by joining them with `"---"`, with a paragraph bundle of length
`expectedCount`, returns exactly those strings in their original order. -/
theorem extract_corrections_round_trip (l : List Str) (bundle : List Paragraph)
    (hlen : bundle.length = l.length)
    (hclean : ∀ s ∈ l, s ≠ [] ∧ pyStrip s = s ∧
      strContains (str "---") s = false ∧ s.getLast? ≠ some '-') :
    extract_corrections bundle (pyJoin (str "---") l) = Except.ok l := by
  have hip : initial_parts (pyJoin (str "---") l) = l := by
    rcases eq_or_ne l [] with hl | hl
    · subst hl
      rfl
    · unfold initial_parts
      rw [show (str "---") = (['-', '-', '-'] : Str) from rfl,
        pySplit_pyJoin l (fun s hs => ⟨(hclean s hs).2.2.1, (hclean s hs).2.2.2⟩) hl]
      exact nonempty_stripped_id l (fun s hs => ⟨(hclean s hs).2.1, (hclean s hs).1⟩)
  unfold extract_corrections
  rw [hip, if_pos hlen.symm]

/-- Witness for C1 at two clean segments. -/
theorem extract_corrections_round_trip_witness :
    extract_corrections [mkPara 1 (str "aa"), mkPara 2 (str "bb")]
      (pyJoin (str "---") [str "Foo", str "Bar"]) =
      Except.ok [str "Foo", str "Bar"] :=
  extract_corrections_round_trip [str "Foo", str "Bar"]
    [mkPara 1 (str "aa"), mkPara 2 (str "bb")] (by decide) (by decide)

/-- Counterexample for C1 as stated, in three parts.  A non-empty string with
leading whitespace is returned trimmed, not verbatim; a segment ending in
`'-'` makes the split cut inside the segments, so other strings are returned;
and a segment containing `"---"` makes the round trip fail with a
`ParseError` instead of returning the strings. -/
theorem extract_corrections_round_trip_cex :
    (extract_corrections [mkPara 1 (str " a")] (pyJoin (str "---") [str " a"]) =
        Except.ok [str "a"] ∧ str "a" ≠ str " a") ∧
    (extract_corrections [mkPara 1 (str "a-"), mkPara 2 (str "-b")]
        (pyJoin (str "---") [str "a-", str "-b"]) =
        Except.ok [str "a", str "--b"] ∧
      ([str "a", str "--b"] : List Str) ≠ [str "a-", str "-b"]) ∧
    extract_corrections [mkPara 1 (str "x---y"), mkPara 2 (str "z")]
      (pyJoin (str "---") [str "x---y", str "z"]) = Except.error ⟨2, 3⟩ := by
  exact ⟨⟨rfl, by decide⟩, ⟨rfl, by decide⟩, rfl⟩
